import Mathlib

/-!
Verification of the dapps-list-backend specification against its source.

The development shallow-embeds the parts of the code the claims are about:
the monthly-active-user estimator of `getDAppDetails`, the slug
deduplication of `getDApps`, the notification filtering of
`getNotifications`, and the single-flight caching `DataProvider` family
(whose implementation file is absent from the sources, hence modelled from
the specification text).

Conventions: JS numbers on the code paths in question carry exact integer
millisecond timestamps and counts, embedded as `Int`; a possibly-missing
JS value (`undefined`) is embedded as `Option`; `Math.round` on an exact
rational is embedded by `jsRound`.
-/

namespace DappsBackend

/-! ## Calendar arithmetic for `new Date(ts).setMonth(getMonth() + 1)`

The estimator computes the timestamp one calendar month after the current
bucket timestamp via a JS `Date`.  We embed the proleptic Gregorian
calendar (UTC; the server clock) with the standard civil-date conversion
algorithms, and the ECMAScript `MakeDay` month/day overflow rules. -/

/-- Milliseconds per day. -/
def msPerDay : Int := 86400000

/-- Days since the epoch 1970-01-01 of the civil date `(y, m, d)`
with month `m` in `1..12`; days of month may overflow per ECMAScript
`MakeDay` (handled by the caller passing day 1 and adding the offset). -/
def daysFromCivil (y m d : Int) : Int :=
  let y := if m ≤ 2 then y - 1 else y
  let era := Int.fdiv y 400
  let yoe := y - era * 400
  let mp := if 2 < m then m - 3 else m + 9
  let doy := Int.fdiv (153 * mp + 2) 5 + d - 1
  let doe := yoe * 365 + Int.fdiv yoe 4 - Int.fdiv yoe 100 + doy
  era * 146097 + doe - 719468

/-- Civil date `(year, month 1..12, day 1..31)` of a day number counted
from the epoch 1970-01-01. -/
def civilFromDays (z : Int) : Int × Int × Int :=
  let z := z + 719468
  let era := Int.fdiv z 146097
  let doe := z - era * 146097
  let yoe := Int.fdiv (doe - Int.fdiv doe 1460 + Int.fdiv doe 36524 - Int.fdiv doe 146096) 365
  let y := yoe + era * 400
  let doy := doe - (365 * yoe + Int.fdiv yoe 4 - Int.fdiv yoe 100)
  let mp := Int.fdiv (5 * doy + 2) 153
  let d := doy - Int.fdiv (153 * mp + 2) 5 + 1
  let m := if mp < 10 then mp + 3 else mp - 9
  (if m ≤ 2 then y + 1 else y, m, d)

/-- Embedding of the source fragment
`const nextMonthDate = new Date(currentMonthTimestamp);
nextMonthDate.setMonth(nextMonthDate.getMonth() + 1);
nextMonthDate.getTime()` (UTC clock): keep the time of day and the day of
month, move to the next calendar month, letting the day overflow into the
following month exactly as ECMAScript `MakeDay` does. -/
def addOneMonthTs (ts : Int) : Int :=
  let days := Int.fdiv ts msPerDay
  let msOfDay := ts - days * msPerDay
  let c := civilFromDays days
  let y := c.1
  let m := c.2.1
  let d := c.2.2
  let y' := if m = 12 then y + 1 else y
  let m' := if m = 12 then 1 else m + 1
  (daysFromCivil y' m' 1 + (d - 1)) * msPerDay + msOfDay

/-! ## The monthly-active-user estimator of `getDAppDetails` -/

/-- One point of the stats series, `[timestamp, count]`; a malformed point
with the count component missing is `count = none`. -/
structure SeriesPoint where
  timestamp : Int
  count : Option Int
deriving DecidableEq, Repr

/-- One week in milliseconds, `7 * 24 * 3600 * 1000` from the source. -/
def oneWeekMs : Int := 7 * 24 * 3600 * 1000

/-- `Math.round (num / den)` for exact integers with `den > 0`:
round half toward positive infinity, i.e. `floor (num / den + 1 / 2)`. -/
def jsRound (num den : Int) : Int := Int.fdiv (2 * num + den) (2 * den)

/-- Embedding of the `estimatedUsersPerMonth` computation of
`getDAppDetails` (source lines 416-443): take the last two points
(`series.slice(-2)`), return 0 on an empty slice, the single point count
verbatim on a one-point slice (possibly `undefined`, embedded `none`),
otherwise destructure with default 0 for missing counts and either fall
back to the previous month count (under one week elapsed) or blend a
linear extrapolation with the previous month, floored by the raw current
count.  The result is `none` exactly when the JS value is `undefined`. -/
def estimatedUsersPerMonth (series : List SeriesPoint) (nowTimestamp : Int) : Option Int :=
  let lastSeries := series.drop (series.length - 2)
  match lastSeries with
  | [] => some 0
  | [p] => p.count
  | prev :: cur :: _ =>
    let prevMonthUsers := prev.count.getD 0
    let currentMonthTimestamp := cur.timestamp
    let currentMonthUsers := cur.count.getD 0
    let currentMonthPartMs := nowTimestamp - currentMonthTimestamp
    if currentMonthPartMs < oneWeekMs then
      some prevMonthUsers
    else
      let currentMonthUsersEstimation :=
        jsRound ((addOneMonthTs currentMonthTimestamp - currentMonthTimestamp) * currentMonthUsers)
          currentMonthPartMs
      some (max (jsRound (prevMonthUsers + currentMonthUsersEstimation) 2) currentMonthUsers)

/-- A series point with a missing count replaced by the default 0 the
destructuring of the source applies. -/
def fillMissingCounts (p : SeriesPoint) : SeriesPoint :=
  ⟨p.timestamp, some (p.count.getD 0)⟩

/-- Any list of length at least two ends in exactly two points after
`slice(-2)`. -/
theorem exists_last_two {α : Type} (l : List α) (h : 2 ≤ l.length) :
    ∃ a b, l.drop (l.length - 2) = [a, b] := by
  have hlen : (l.drop (l.length - 2)).length = 2 := by
    rw [List.length_drop]
    omega
  match hd : l.drop (l.length - 2) with
  | [] => simp [hd] at hlen
  | [a] => simp [hd] at hlen
  | a :: b :: rest =>
    refine ⟨a, b, ?_⟩
    simp [hd] at hlen
    simp [hlen]

/-- Evaluation of the estimator when the sliced series is exactly two
points. -/
theorem estimator_two_point_eval (series : List SeriesPoint) (prev cur : SeriesPoint)
    (nowTimestamp : Int) (h : series.drop (series.length - 2) = [prev, cur]) :
    estimatedUsersPerMonth series nowTimestamp =
      if nowTimestamp - cur.timestamp < oneWeekMs then some (prev.count.getD 0)
      else
        some (max (jsRound (prev.count.getD 0 +
            jsRound ((addOneMonthTs cur.timestamp - cur.timestamp) * cur.count.getD 0)
              (nowTimestamp - cur.timestamp)) 2) (cur.count.getD 0)) := by
  simp only [estimatedUsersPerMonth, h]

/-- C5: the monthly-active-user estimator returns 0 on an empty series,
and on a series from which exactly one point is taken it returns that
point count verbatim; in particular the series `[[T0, 100]]` yields
100. -/
theorem estimator_base_cases :
    (∀ nowTimestamp : Int, estimatedUsersPerMonth [] nowTimestamp = some 0)
    ∧ (∀ (p : SeriesPoint) (nowTimestamp : Int),
        estimatedUsersPerMonth [p] nowTimestamp = p.count)
    ∧ (∀ t0 nowTimestamp : Int,
        estimatedUsersPerMonth [⟨t0, some 100⟩] nowTimestamp = some 100) :=
  ⟨fun _ => rfl, fun _ _ => rfl, fun _ _ => rfl⟩

/-- C6: with at least two points and less than one week elapsed into the
current month, the estimate is the count of the second-to-last point
(missing count defaulting to 0). -/
theorem estimator_young_month (series : List SeriesPoint) (prev cur : SeriesPoint)
    (nowTimestamp : Int) (h : series.drop (series.length - 2) = [prev, cur])
    (hw : nowTimestamp - cur.timestamp < oneWeekMs) :
    estimatedUsersPerMonth series nowTimestamp = some (prev.count.getD 0) := by
  rw [estimator_two_point_eval series prev cur nowTimestamp h, if_pos hw]

/-- C6 witness: `[[T0, 100], [T1, 10]]` with `T1` two days before now
yields 100. -/
theorem estimator_young_month_witness :
    estimatedUsersPerMonth [⟨0, some 100⟩, ⟨10, some 10⟩] (10 + 2 * msPerDay) = some 100 :=
  estimator_young_month [⟨0, some 100⟩, ⟨10, some 10⟩] ⟨0, some 100⟩ ⟨10, some 10⟩
    (10 + 2 * msPerDay) (by decide) (by decide)

/-- C7: with at least two points and at least one week elapsed into the
current month, the estimate is
`max (round ((prevCount + projected) / 2)) curCount` where `projected`
linearly extrapolates the current count to the calendar boundary one
month after the current point; in particular it is never below the raw
current count. -/
theorem estimator_extrapolation (series : List SeriesPoint) (prev cur : SeriesPoint)
    (nowTimestamp : Int) (h : series.drop (series.length - 2) = [prev, cur])
    (hw : oneWeekMs ≤ nowTimestamp - cur.timestamp) :
    estimatedUsersPerMonth series nowTimestamp =
      some (max (jsRound (prev.count.getD 0 +
          jsRound ((addOneMonthTs cur.timestamp - cur.timestamp) * cur.count.getD 0)
            (nowTimestamp - cur.timestamp)) 2) (cur.count.getD 0))
    ∧ ∀ v, estimatedUsersPerMonth series nowTimestamp = some v → cur.count.getD 0 ≤ v := by
  have heval := estimator_two_point_eval series prev cur nowTimestamp h
  rw [if_neg (not_lt.mpr hw)] at heval
  refine ⟨heval, fun v hv => ?_⟩
  rw [heval] at hv
  injection hv with hv
  omega

/-- C7 witness: `[[T0, 100], [T1, 15]]` with `T1` the start of a 30-day
month (April 2023, UTC) and now 20 days later gives
`max (round ((100 + 23) / 2)) 15 = 62`. -/
theorem estimator_extrapolation_witness :
    estimatedUsersPerMonth [⟨0, some 100⟩, ⟨1680307200000, some 15⟩]
      (1680307200000 + 20 * msPerDay) = some 62 :=
  Eq.trans
    (estimator_extrapolation [⟨0, some 100⟩, ⟨1680307200000, some 15⟩]
      ⟨0, some 100⟩ ⟨1680307200000, some 15⟩ (1680307200000 + 20 * msPerDay)
      (by decide) (by decide)).1
    (by decide)

/-- C8 counterexample: on the single-point series whose point has a
missing count, the estimator returns the missing value itself (JS
`undefined`), not the numeric 0 the claim predicts for every branch. -/
theorem estimator_missing_count_counterexample :
    estimatedUsersPerMonth [⟨0, none⟩] 0 = none
    ∧ estimatedUsersPerMonth [⟨0, none⟩] 0 ≠ some 0 := by
  exact ⟨rfl, by decide⟩

/-- C8 amended: in the branches that see at least two points, missing
counts default to 0 and the estimator returns a numeric value; in the
single-point branch a missing count propagates verbatim instead. -/
theorem estimator_missing_count_default (series : List SeriesPoint)
    (nowTimestamp : Int) (h : 2 ≤ series.length) :
    (∃ v, estimatedUsersPerMonth series nowTimestamp = some v)
    ∧ estimatedUsersPerMonth series nowTimestamp =
        estimatedUsersPerMonth (series.map fillMissingCounts) nowTimestamp := by
  obtain ⟨a, b, hd⟩ := exists_last_two series h
  have hd' : (series.map fillMissingCounts).drop ((series.map fillMissingCounts).length - 2)
      = [fillMissingCounts a, fillMissingCounts b] := by
    rw [List.length_map, ← List.map_drop, hd]
    rfl
  have h1 := estimator_two_point_eval series a b nowTimestamp hd
  have h2 := estimator_two_point_eval (series.map fillMissingCounts)
    (fillMissingCounts a) (fillMissingCounts b) nowTimestamp hd'
  simp only [fillMissingCounts, Option.getD_some] at h2
  constructor
  · rw [h1]
    split <;> exact ⟨_, rfl⟩
  · rw [h1, h2]

/-- C8 amended witness: a two-point series with both counts missing
yields the numeric estimate obtained by defaulting both counts to 0. -/
theorem estimator_missing_count_default_witness :
    (∃ v, estimatedUsersPerMonth [⟨0, none⟩, ⟨0, none⟩] 0 = some v)
    ∧ estimatedUsersPerMonth [⟨0, none⟩, ⟨0, none⟩] 0 =
        estimatedUsersPerMonth ([⟨0, none⟩, ⟨0, none⟩].map fillMissingCounts) 0 :=
  estimator_missing_count_default [⟨0, none⟩, ⟨0, none⟩] 0 (by decide)

/-! ## Slug deduplication of `getDApps` -/

/-- Screenshot entry of a dApp list item. -/
structure BcdDAppScreenshot where
  type : String
  link : String
deriving DecidableEq, Repr

/-- A dApp list item as returned by the upstream; fields from the
`DAppsListItem` type of the source. -/
structure DAppsListItem where
  name : String
  short_description : String
  full_description : String
  website : String
  slug : String
  authors : List String
  social_links : Option (List String)
  interfaces : Option (List String)
  categories : List String
  soon : Bool
  logo : String
  cover : String
  screenshots : Option (List BcdDAppScreenshot)
deriving DecidableEq, Repr

/-- One step of the `reduce` in `getDApps`: push the dApp unless some
already-kept dApp has the same slug. -/
def dedupBySlugStep (uniqueDApps : List DAppsListItem) (dApp : DAppsListItem) :
    List DAppsListItem :=
  if uniqueDApps.any (fun u => u.slug == dApp.slug) then uniqueDApps
  else uniqueDApps ++ [dApp]

/-- The `reduce` of `getDApps` keeping the first occurrence of each
slug. -/
def dedupBySlug (bcdDApps : List DAppsListItem) : List DAppsListItem :=
  bcdDApps.foldl dedupBySlugStep []

/-- Embedding of `getDApps` (source lines 364-378): deduplicate the
upstream dApps by slug, then append the custom dApps whose slug no
upstream dApp carries.  The source module defines `customDApps` as a
constant empty list; the embedding keeps it as a parameter. -/
def getDApps (bcdDApps customDApps : List DAppsListItem) : List DAppsListItem :=
  dedupBySlug bcdDApps ++
    customDApps.filter (fun c => !(bcdDApps.any (fun d => d.slug == c.slug)))

/-- The dedup step keeps the accumulator when the slug is already
present. -/
theorem dedupBySlugStep_pos {acc : List DAppsListItem} {d : DAppsListItem}
    (h : acc.any (fun u => u.slug == d.slug) = true) :
    dedupBySlugStep acc d = acc := by
  simp only [dedupBySlugStep, if_pos h]

/-- The dedup step pushes the dApp when its slug is new. -/
theorem dedupBySlugStep_neg {acc : List DAppsListItem} {d : DAppsListItem}
    (h : ¬ acc.any (fun u => u.slug == d.slug) = true) :
    dedupBySlugStep acc d = acc ++ [d] := by
  simp only [dedupBySlugStep, if_neg h]

/-- Slug membership through the dedup fold. -/
theorem dedupBySlug_foldl_mem_slug (l : List DAppsListItem) :
    ∀ (acc : List DAppsListItem) (s : String),
      (s ∈ (l.foldl dedupBySlugStep acc).map DAppsListItem.slug ↔
        s ∈ acc.map DAppsListItem.slug ∨ s ∈ l.map DAppsListItem.slug) := by
  induction l with
  | nil => intro acc s; simp
  | cons d rest ih =>
    intro acc s
    rw [List.foldl_cons, ih]
    by_cases hc : acc.any (fun u => u.slug == d.slug) = true
    · rw [dedupBySlugStep_pos hc]
      simp only [List.any_eq_true, beq_iff_eq] at hc
      obtain ⟨u, hu, hus⟩ := hc
      have hdm : d.slug ∈ acc.map DAppsListItem.slug :=
        hus ▸ List.mem_map_of_mem DAppsListItem.slug hu
      simp only [List.map_cons, List.mem_cons]
      constructor
      · tauto
      · rintro (h | h | h)
        · exact Or.inl h
        · subst h
          exact Or.inl hdm
        · exact Or.inr h
    · rw [dedupBySlugStep_neg hc]
      simp only [List.map_append, List.map_cons, List.map_nil, List.mem_append,
        List.mem_cons, List.mem_singleton]
      tauto

/-- The dedup fold preserves slug uniqueness of the accumulator. -/
theorem dedupBySlug_foldl_nodup (l : List DAppsListItem) :
    ∀ acc : List DAppsListItem, (acc.map DAppsListItem.slug).Nodup →
      ((l.foldl dedupBySlugStep acc).map DAppsListItem.slug).Nodup := by
  induction l with
  | nil => intro acc h; simpa using h
  | cons d rest ih =>
    intro acc h
    rw [List.foldl_cons]
    apply ih
    by_cases hc : acc.any (fun u => u.slug == d.slug) = true
    · rw [dedupBySlugStep_pos hc]
      exact h
    · rw [dedupBySlugStep_neg hc]
      simp only [List.any_eq_true, beq_iff_eq, not_exists, not_and] at hc
      rw [List.map_append, List.nodup_append]
      refine ⟨h, by simp, ?_⟩
      intro s hs hs'
      obtain ⟨u, hu, hus⟩ := List.mem_map.mp hs
      have hsd : s = d.slug := by simpa using hs'
      exact hc u hu (hus.trans hsd)

/-- The dedup fold appends a sublist of its input to the accumulator. -/
theorem dedupBySlug_foldl_sublist (l : List DAppsListItem) :
    ∀ acc : List DAppsListItem,
      ∃ r, l.foldl dedupBySlugStep acc = acc ++ r ∧ r.Sublist l := by
  induction l with
  | nil => intro acc; exact ⟨[], by simp⟩
  | cons d rest ih =>
    intro acc
    rw [List.foldl_cons]
    by_cases hc : acc.any (fun u => u.slug == d.slug) = true
    · rw [dedupBySlugStep_pos hc]
      obtain ⟨r, hr, hsub⟩ := ih acc
      exact ⟨r, hr, hsub.cons d⟩
    · rw [dedupBySlugStep_neg hc]
      obtain ⟨r, hr, hsub⟩ := ih (acc ++ [d])
      refine ⟨d :: r, ?_, hsub.cons₂ d⟩
      rw [hr, List.append_assoc]
      rfl

/-- Every element the dedup fold keeps is the first occurrence of its
slug: either it was already in the accumulator, or it is found by
`find?` over the input and its slug is absent from the accumulator. -/
theorem dedupBySlug_foldl_first (l : List DAppsListItem) :
    ∀ (acc : List DAppsListItem) (d : DAppsListItem),
      d ∈ l.foldl dedupBySlugStep acc →
      d ∈ acc ∨ ((∀ u ∈ acc, u.slug ≠ d.slug) ∧
        l.find? (fun x => x.slug == d.slug) = some d) := by
  induction l with
  | nil => intro acc d h; exact Or.inl (by simpa using h)
  | cons x rest ih =>
    intro acc d h
    rw [List.foldl_cons] at h
    by_cases hc : acc.any (fun u => u.slug == x.slug) = true
    · rw [dedupBySlugStep_pos hc] at h
      rcases ih _ d h with hmem | ⟨hslug, hfind⟩
      · exact Or.inl hmem
      · right
        simp only [List.any_eq_true, beq_iff_eq] at hc
        obtain ⟨u, hu, hus⟩ := hc
        have hxd : ¬ (x.slug = d.slug) := fun he => hslug u hu (hus.trans he)
        refine ⟨hslug, ?_⟩
        rw [List.find?_cons_of_neg _ (by simpa using hxd)]
        exact hfind
    · rw [dedupBySlugStep_neg hc] at h
      simp only [List.any_eq_true, beq_iff_eq, not_exists, not_and] at hc
      rcases ih _ d h with hmem | ⟨hslug, hfind⟩
      · rcases List.mem_append.mp hmem with hacc | hx
        · exact Or.inl hacc
        · right
          have hxd : x = d := List.mem_singleton.mp hx |>.symm
          subst hxd
          refine ⟨fun u hu he => hc u hu he, ?_⟩
          rw [List.find?_cons_of_pos]
          simp
      · right
        have hxd : ¬ (x.slug = d.slug) := by
          intro he
          exact hslug x (List.mem_append.mpr (Or.inr (List.mem_singleton.mpr rfl))) he
        refine ⟨fun u hu => hslug u (List.mem_append.mpr (Or.inl hu)), ?_⟩
        rw [List.find?_cons_of_neg _ (by simpa using hxd)]
        exact hfind

/-- C9 amended: provided the custom dApps carry pairwise distinct slugs
(true of the constant empty list of the source), `getDApps` returns at
most one entry per slug; it is the upstream list with only the first
occurrence of each slug kept in order, followed by exactly the custom
dApps whose slug no upstream dApp carries. -/
theorem getDApps_unique_slugs (bcdDApps customDApps : List DAppsListItem)
    (hcustom : (customDApps.map DAppsListItem.slug).Nodup) :
    ((getDApps bcdDApps customDApps).map DAppsListItem.slug).Nodup
    ∧ getDApps bcdDApps customDApps = dedupBySlug bcdDApps ++
        customDApps.filter (fun c => !(bcdDApps.any (fun d => d.slug == c.slug)))
    ∧ (dedupBySlug bcdDApps).Sublist bcdDApps
    ∧ (∀ d ∈ bcdDApps, d.slug ∈ (dedupBySlug bcdDApps).map DAppsListItem.slug)
    ∧ (∀ d ∈ dedupBySlug bcdDApps,
        bcdDApps.find? (fun x => x.slug == d.slug) = some d)
    ∧ (∀ c, c ∈ customDApps.filter (fun c => !(bcdDApps.any (fun d => d.slug == c.slug)))
        ↔ c ∈ customDApps ∧ ∀ d ∈ bcdDApps, d.slug ≠ c.slug) := by
  have hsubl : (dedupBySlug bcdDApps).Sublist bcdDApps := by
    obtain ⟨r, hr, hsub⟩ := dedupBySlug_foldl_sublist bcdDApps []
    rw [dedupBySlug, hr]
    simpa using hsub
  have hfilter : ∀ c,
      c ∈ customDApps.filter (fun c => !(bcdDApps.any (fun d => d.slug == c.slug)))
        ↔ c ∈ customDApps ∧ ∀ d ∈ bcdDApps, d.slug ≠ c.slug := by
    intro c
    simp [List.mem_filter]
  refine ⟨?_, rfl, hsubl, ?_, ?_, hfilter⟩
  · rw [getDApps, List.map_append, List.nodup_append]
    refine ⟨dedupBySlug_foldl_nodup bcdDApps [] (by simp), ?_, ?_⟩
    · exact ((List.filter_sublist customDApps).map DAppsListItem.slug).nodup hcustom
    · intro s hs hs'
      have hsbcd : s ∈ bcdDApps.map DAppsListItem.slug := by
        have := (dedupBySlug_foldl_mem_slug bcdDApps [] s).mp hs
        simpa using this
      obtain ⟨c, hc, hcs⟩ := List.mem_map.mp hs'
      obtain ⟨_, hnone⟩ := (hfilter c).mp hc
      obtain ⟨d, hd, hds⟩ := List.mem_map.mp hsbcd
      exact hnone d hd (hds.trans hcs.symm)
  · intro d hd
    have := (dedupBySlug_foldl_mem_slug bcdDApps [] d.slug).mpr
      (Or.inr (List.mem_map_of_mem DAppsListItem.slug hd))
    simpa [dedupBySlug] using this
  · intro d hd
    rw [dedupBySlug] at hd
    rcases dedupBySlug_foldl_first bcdDApps [] d hd with h | ⟨_, hfind⟩
    · simp at h
    · exact hfind

/-- A concrete dApp list item with the given name and slug. -/
def mkDApp (itemName itemSlug : String) : DAppsListItem :=
  ⟨itemName, "", "", "", itemSlug, [], none, none, [], false, "", "", none⟩

/-- C9 counterexample: with an upstream list and a custom list that
itself repeats a slug, `getDApps` returns two entries with that slug —
the custom dApps are deduplicated against the upstream list only, not
against each other. -/
theorem getDApps_duplicate_custom_counterexample :
    ¬ ((getDApps [] [mkDApp "a" "x", mkDApp "b" "x"]).map DAppsListItem.slug).Nodup
    ∧ getDApps [] [mkDApp "a" "x", mkDApp "b" "x"] = [mkDApp "a" "x", mkDApp "b" "x"] := by
  exact ⟨by decide, by decide⟩

/-- C9 amended witness: on a concrete upstream list with a repeated slug
and distinct-slug custom dApps, the conjunction of the amended claim
holds. -/
theorem getDApps_unique_slugs_witness :
    ((getDApps [mkDApp "a" "x", mkDApp "b" "x"] [mkDApp "c" "x", mkDApp "d" "y"]).map
        DAppsListItem.slug).Nodup
    ∧ getDApps [mkDApp "a" "x", mkDApp "b" "x"] [mkDApp "c" "x", mkDApp "d" "y"] =
        dedupBySlug [mkDApp "a" "x", mkDApp "b" "x"] ++
          [mkDApp "c" "x", mkDApp "d" "y"].filter
            (fun c => !([mkDApp "a" "x", mkDApp "b" "x"].any (fun d => d.slug == c.slug)))
    ∧ (dedupBySlug [mkDApp "a" "x", mkDApp "b" "x"]).Sublist [mkDApp "a" "x", mkDApp "b" "x"]
    ∧ (∀ d ∈ [mkDApp "a" "x", mkDApp "b" "x"],
        d.slug ∈ (dedupBySlug [mkDApp "a" "x", mkDApp "b" "x"]).map DAppsListItem.slug)
    ∧ (∀ d ∈ dedupBySlug [mkDApp "a" "x", mkDApp "b" "x"],
        [mkDApp "a" "x", mkDApp "b" "x"].find? (fun x => x.slug == d.slug) = some d)
    ∧ (∀ c, c ∈ [mkDApp "c" "x", mkDApp "d" "y"].filter
          (fun c => !([mkDApp "a" "x", mkDApp "b" "x"].any (fun d => d.slug == c.slug)))
        ↔ c ∈ [mkDApp "c" "x", mkDApp "d" "y"]
          ∧ ∀ d ∈ [mkDApp "a" "x", mkDApp "b" "x"], d.slug ≠ c.slug) :=
  getDApps_unique_slugs [mkDApp "a" "x", mkDApp "b" "x"] [mkDApp "c" "x", mkDApp "d" "y"]
    (by decide)

/-! ## Notification filtering of `getNotifications`

The `Notification` interface file is not among the sources; the fields
below are the ones `getNotifications` reads, with types taken from its
usage and from the notification list data file.  `createdAt` and
`expirationDate` are embedded as the epoch-millisecond values their ISO
strings parse to; an absent or empty `expirationDate` is `none`. -/

/-- Client platform of a notification. -/
inductive PlatformType where
  | extensionPlatform
  | mobilePlatform
deriving DecidableEq, Repr

/-- A stored notification, restricted to the fields `getNotifications`
reads. -/
structure Notification where
  id : Int
  createdAt : Int
  platforms : List PlatformType
  isMandatory : Option Bool
  expirationDate : Option Int
deriving DecidableEq, Repr

/-- The expiry test of `getNotifications`:
`isNonEmptyString(expirationDate) && new Date(expirationDate).getTime() < now`. -/
def notificationExpired (n : Notification) (now : Int) : Bool :=
  match n.expirationDate with
  | some e => e < now
  | none => false

/-- The push condition of `getNotifications`:
`platforms.includes(platform) && (isMandatory === true ||
(createdAtTimestamp > startFromTime && createdAtTimestamp < now))`. -/
def notificationMatches (n : Notification) (platform : PlatformType)
    (startFromTime now : Int) : Bool :=
  n.platforms.contains platform &&
    (n.isMandatory == some true ||
      (startFromTime < n.createdAt && n.createdAt < now))

/-- The loop of `getNotifications` over the (sorted) stored
notifications: expired ones are removed from storage (second component)
and skipped; matching ones are collected (first component). -/
def notificationsLoop (platform : PlatformType) (startFromTime now : Int) :
    List Notification → List Notification × List Notification
  | [] => ([], [])
  | n :: rest =>
    let tail := notificationsLoop platform startFromTime now rest
    if notificationExpired n now then (tail.1, n :: tail.2)
    else if notificationMatches n platform startFromTime now then (n :: tail.1, tail.2)
    else tail

/-- Stable insertion into a list sorted by descending `createdAt`: walk
past strictly newer entries, placing the new entry before all entries of
equal or older creation time it meets. -/
def insertByCreatedAtDesc (x : Notification) : List Notification → List Notification
  | [] => [x]
  | y :: ys =>
    if x.createdAt < y.createdAt then y :: insertByCreatedAtDesc x ys
    else x :: y :: ys

/-- The sort of `getNotifications`,
`sort((a, b) => createdAt(b) - createdAt(a))`: a stable sort by
descending creation time (ECMAScript mandates the sorted stable order,
not the algorithm; a stable insertion sort realizes it). -/
def sortByCreatedAtDesc (l : List Notification) : List Notification :=
  l.foldr insertByCreatedAtDesc []

/-- Membership is invariant under the insertion. -/
theorem mem_insertByCreatedAtDesc (x n : Notification) (l : List Notification) :
    n ∈ insertByCreatedAtDesc x l ↔ n = x ∨ n ∈ l := by
  induction l with
  | nil => simp [insertByCreatedAtDesc]
  | cons y ys ih =>
    simp only [insertByCreatedAtDesc]
    split
    · simp only [List.mem_cons, ih]
      tauto
    · simp only [List.mem_cons]

/-- Membership is invariant under the sort. -/
theorem mem_sortByCreatedAtDesc (n : Notification) (l : List Notification) :
    n ∈ sortByCreatedAtDesc l ↔ n ∈ l := by
  induction l with
  | nil => simp [sortByCreatedAtDesc]
  | cons y ys ih =>
    simp only [sortByCreatedAtDesc, List.foldr_cons] at ih ⊢
    rw [mem_insertByCreatedAtDesc, ih, List.mem_cons]

/-- Embedding of `getNotifications` (source part_004 lines 6-33): sort
the stored notifications by descending creation time (JS stable sort by
the comparator), then filter; returns the served list and the list
removed from storage. -/
def getNotifications (stored : List Notification) (platform : PlatformType)
    (startFromTime now : Int) : List Notification × List Notification :=
  notificationsLoop platform startFromTime now (sortByCreatedAtDesc stored)

/-- Every notification the loop returns satisfies the push condition and
is not expired; every expired input lands in the removed list. -/
theorem notificationsLoop_sound (platform : PlatformType) (startFromTime now : Int)
    (l : List Notification) :
    (∀ n ∈ (notificationsLoop platform startFromTime now l).1,
      n ∈ l ∧ notificationExpired n now = false
        ∧ notificationMatches n platform startFromTime now = true)
    ∧ (∀ n ∈ l, notificationExpired n now = true →
        n ∈ (notificationsLoop platform startFromTime now l).2) := by
  induction l with
  | nil => simp [notificationsLoop]
  | cons x rest ih =>
    simp only [notificationsLoop]
    by_cases hx : notificationExpired x now = true
    · rw [if_pos hx]
      refine ⟨fun n hn => ?_, fun n hn hexp => ?_⟩
      · obtain ⟨hmem, hne, hmat⟩ := ih.1 n hn
        exact ⟨List.mem_cons_of_mem x hmem, hne, hmat⟩
      · rcases List.mem_cons.mp hn with rfl | hmem
        · exact List.mem_cons_self _ _
        · exact List.mem_cons_of_mem x (ih.2 n hmem hexp)
    · rw [if_neg hx]
      by_cases hm : notificationMatches x platform startFromTime now = true
      · rw [if_pos hm]
        refine ⟨fun n hn => ?_, fun n hn hexp => ?_⟩
        · rcases List.mem_cons.mp hn with rfl | hmem
          · exact ⟨List.mem_cons_self _ _, Bool.eq_false_iff.mpr hx, hm⟩
          · obtain ⟨hmem2, hne, hmat⟩ := ih.1 n hmem
            exact ⟨List.mem_cons_of_mem x hmem2, hne, hmat⟩
        · rcases List.mem_cons.mp hn with rfl | hmem
          · exact absurd hexp hx
          · exact ih.2 n hmem hexp
      · rw [if_neg hm]
        refine ⟨fun n hn => ?_, fun n hn hexp => ?_⟩
        · obtain ⟨hmem, hne, hmat⟩ := ih.1 n hn
          exact ⟨List.mem_cons_of_mem x hmem, hne, hmat⟩
        · rcases List.mem_cons.mp hn with rfl | hmem
          · exact absurd hexp hx
          · exact ih.2 n hmem hexp

/-- C10: every notification `getNotifications` returns lists the
requested platform; a returned notification that is not mandatory was
created strictly after `startFromTime` and strictly before now; an
expired notification (non-empty expiration date before now) is never
returned, and is removed from storage. -/
theorem getNotifications_sound (stored : List Notification)
    (platform : PlatformType) (startFromTime now : Int) :
    (∀ n ∈ (getNotifications stored platform startFromTime now).1,
      platform ∈ n.platforms
        ∧ (n.isMandatory ≠ some true →
            startFromTime < n.createdAt ∧ n.createdAt < now)
        ∧ (∀ e, n.expirationDate = some e → ¬ e < now))
    ∧ (∀ n ∈ stored, (∀ e, n.expirationDate = some e → e < now) →
        n.expirationDate ≠ none →
        n ∈ (getNotifications stored platform startFromTime now).2) := by
  have hloop := notificationsLoop_sound platform startFromTime now
    (sortByCreatedAtDesc stored)
  constructor
  · intro n hn
    obtain ⟨_, hne, hmat⟩ := hloop.1 n hn
    simp only [notificationMatches] at hmat
    simp only [Bool.and_eq_true, Bool.or_eq_true, beq_iff_eq, decide_eq_true_eq] at hmat
    obtain ⟨hplat, hcond⟩ := hmat
    replace hplat : platform ∈ n.platforms := by simpa using hplat
    refine ⟨hplat, fun hnm => ?_, fun e he => ?_⟩
    · rcases hcond with hmand | htime
      · exact absurd hmand hnm
      · simpa using htime
    · simp only [notificationExpired, he] at hne
      simpa using hne
  · intro n hmem hexp hsome
    match he : n.expirationDate with
    | none => exact absurd he hsome
    | some e =>
      apply hloop.2 n
      · rw [mem_sortByCreatedAtDesc]
        exact hmem
      · simp only [notificationExpired, he]
        exact decide_eq_true (hexp e he)

/-- C10 witness: on a concrete store with one live matching notification
and one expired one, the live one is returned with the asserted
properties and the expired one is removed. -/
theorem getNotifications_sound_witness :
    (PlatformType.mobilePlatform ∈
        (⟨1, 50, [PlatformType.mobilePlatform], none, none⟩ : Notification).platforms
      ∧ ((⟨1, 50, [PlatformType.mobilePlatform], none, none⟩ : Notification).isMandatory
            ≠ some true → (10 : Int) < 50 ∧ (50 : Int) < 100)
      ∧ (∀ e, (⟨1, 50, [PlatformType.mobilePlatform], none, none⟩ : Notification).expirationDate
            = some e → ¬ e < 100))
    ∧ (⟨2, 20, [PlatformType.mobilePlatform], none, some 30⟩ : Notification) ∈
        (getNotifications
          [⟨1, 50, [PlatformType.mobilePlatform], none, none⟩,
           ⟨2, 20, [PlatformType.mobilePlatform], none, some 30⟩]
          PlatformType.mobilePlatform 10 100).2 := by
  have h := getNotifications_sound
    [⟨1, 50, [PlatformType.mobilePlatform], none, none⟩,
     ⟨2, 20, [PlatformType.mobilePlatform], none, some 30⟩]
    PlatformType.mobilePlatform 10 100
  constructor
  · exact h.1 ⟨1, 50, [PlatformType.mobilePlatform], none, none⟩ (by decide)
  · exact h.2 ⟨2, 20, [PlatformType.mobilePlatform], none, some 30⟩ (by decide)
      (by intro e he; injection he with he; omega) (by decide)

/-! ## The single-flight data provider family

The implementation files `utils/DataProvider` and
`utils/SingleQueryDataProvider` are not among the sources (only their
callers are), so the component is modelled from the specification text
(sections 3, 4.1, 4.2, 5 and 7) as an explicit per-key state machine
with cooperative scheduling: a `call` event is one `getState` request
hitting the provider, a `settle` event is the wrapped fetch function
resolving or rejecting.  All definitions in this section carry the
`Modelled from the spec` marker. -/

/-- Modelled from the spec: `CacheEntry<T>` of section 3 (the
implementation file is missing from the sources) — the last
successfully fetched payload and the time it was obtained. -/
structure CacheEntry (T : Type) where
  value : T
  fetchedAt : Int
deriving DecidableEq, Repr

/-- Modelled from the spec: `InFlightFetch<T>` of section 3 (the
implementation file is missing from the sources) — one pending fetch,
identified by `fid`, remembering when it was triggered and which
callers await it (fan-in list of caller ids). -/
structure InFlightFetch where
  fid : Nat
  startedAt : Int
  waiters : List Nat
deriving DecidableEq, Repr

/-- Modelled from the spec: `ProviderState<K, T>` of section 3 for one
key (the implementation file is missing from the sources).  The
in-flight fetches are kept as a list so that the single-flight property
is a theorem about reachable states, not a consequence of the type;
`nextFetchId` counts every fetch ever started. -/
structure PState (T : Type) where
  entry : Option (CacheEntry T)
  inflight : List InFlightFetch
  nextFetchId : Nat
deriving DecidableEq, Repr

/-- Outcome of a settled fetch: resolved data or a rejection. -/
inductive Outcome (T E : Type) where
  | data (v : T)
  | err (e : E)
deriving DecidableEq, Repr

/-- What one `getState` call observes synchronously: an immediate value,
or suspension until the awaited fetch settles. -/
inductive CallResult (T : Type) where
  | immediate (v : T)
  | blocked
deriving DecidableEq, Repr

/-- Modelled from the spec: the state of a key nobody has requested yet
(section 3, created lazily, no entry, nothing in flight). -/
def pInit {T : Type} : PState T :=
  ⟨none, [], 0⟩

/-- Modelled from the spec: one `getState` call on the state of its key,
following the branch list of section 4.1 (the implementation file is
missing from the sources).  No entry and nothing in flight: start a
fetch and await it.  No entry and a fetch in flight: await that fetch.
Fresh entry: return its value immediately.  Stale entry with a fetch in
flight: await that same fetch.  Stale entry with nothing in flight:
trigger one refresh asynchronously (no waiter) and return the stale
value immediately. -/
def pcall {T : Type} (R : Int) (s : PState T) (caller : Nat) (now : Int) :
    PState T × CallResult T :=
  match s.entry with
  | none =>
    match s.inflight with
    | [] =>
      ({ s with
          inflight := [⟨s.nextFetchId, now, [caller]⟩],
          nextFetchId := s.nextFetchId + 1 }, CallResult.blocked)
    | f :: rest =>
      ({ s with inflight := ⟨f.fid, f.startedAt, f.waiters ++ [caller]⟩ :: rest },
        CallResult.blocked)
  | some e =>
    if now - e.fetchedAt < R then (s, CallResult.immediate e.value)
    else
      match s.inflight with
      | f :: rest =>
        ({ s with inflight := ⟨f.fid, f.startedAt, f.waiters ++ [caller]⟩ :: rest },
          CallResult.blocked)
      | [] =>
        ({ s with
            inflight := [⟨s.nextFetchId, now, []⟩],
            nextFetchId := s.nextFetchId + 1 }, CallResult.immediate e.value)

/-- Modelled from the spec: a fetch settling (sections 4.1 and 7; the
implementation file is missing from the sources).  The in-flight record
is cleared whatever the outcome; on success the entry is replaced
wholesale and stamped with the settle time, on failure the entry is
left untouched; every recorded waiter receives the same outcome.  A
settle for an unknown fetch id changes nothing. -/
def psettle {T E : Type} (s : PState T) (fid : Nat) (o : Outcome T E) (now : Int) :
    PState T × List (Nat × Outcome T E) :=
  if s.inflight.any (fun f => f.fid == fid) then
    let newEntry : Option (CacheEntry T) :=
      match o with
      | Outcome.data v => some ⟨v, now⟩
      | Outcome.err _ => s.entry
    ({ entry := newEntry,
        inflight := s.inflight.filter (fun f => !(f.fid == fid)),
        nextFetchId := s.nextFetchId },
      (((s.inflight.filter (fun f => f.fid == fid)).map InFlightFetch.waiters).flatten).map
        (fun c => (c, o)))
  else (s, [])

/-- An interaction event on one key: a `getState` call or a fetch
settling. -/
inductive PEvent (T E : Type) where
  | call (caller : Nat) (now : Int)
  | settle (fid : Nat) (o : Outcome T E) (now : Int)
deriving DecidableEq, Repr

/-- The clock reading of an event. -/
def timeOf {T E : Type} : PEvent T E → Int
  | PEvent.call _ now => now
  | PEvent.settle _ _ now => now

/-- Modelled from the spec: the state transition of one event on one
key. -/
def pstep {T E : Type} (R : Int) (s : PState T) : PEvent T E → PState T
  | PEvent.call c now => (pcall R s c now).1
  | PEvent.settle fid o now => (psettle s fid o now).1

/-- Run a trace of events on one key. -/
def prun {T E : Type} (R : Int) (s : PState T) (tr : List (PEvent T E)) : PState T :=
  tr.foldl (pstep R) s

/-- A trace is chronological from a clock lower bound: event times never
decrease. -/
def chrono {T E : Type} : Int → List (PEvent T E) → Bool
  | _, [] => true
  | t, e :: rest => decide (t ≤ timeOf e) && chrono (timeOf e) rest

/-- The clock after running a trace from a lower bound. -/
def clockAfter {T E : Type} : Int → List (PEvent T E) → Int
  | t, [] => t
  | _, e :: rest => clockAfter (timeOf e) rest

/-- The reachability invariant of the per-key machine: at most one fetch
is in flight, every in-flight fetch started no later than the current
clock, and an in-flight fetch was triggered when the entry was already
stale (or absent). -/
def InvP {T : Type} (R t : Int) (s : PState T) : Prop :=
  s.inflight.length ≤ 1
  ∧ ∀ f ∈ s.inflight, f.startedAt ≤ t
      ∧ ∀ e, s.entry = some e → R ≤ f.startedAt - e.fetchedAt

/-- The invariant holds initially. -/
theorem invP_init {T : Type} (R t : Int) : InvP R t (pInit (T := T)) := by
  constructor
  · simp [pInit]
  · intro f hf
    simp [pInit] at hf

/-- One step preserves the invariant, moving the clock to the event
time. -/
theorem invP_step {T E : Type} (R t : Int) (s : PState T) (ev : PEvent T E)
    (hinv : InvP R t s) (ht : t ≤ timeOf ev) :
    InvP R (timeOf ev) (pstep R s ev) := by
  obtain ⟨hlen, hfl⟩ := hinv
  cases ev with
  | call c now =>
    simp only [timeOf] at ht ⊢
    cases hentry : s.entry with
    | none =>
      cases hfl2 : s.inflight with
      | nil =>
        simp only [pstep, pcall, hentry, hfl2]
        refine ⟨by simp, ?_⟩
        intro f hf
        simp only [List.mem_singleton] at hf
        subst hf
        exact ⟨le_refl now, fun e he => by simp at he⟩
      | cons f0 rest =>
        simp only [pstep, pcall, hentry, hfl2]
        refine ⟨by simpa [hfl2] using hlen, ?_⟩
        intro f hf
        simp only [List.mem_cons] at hf
        rcases hf with rfl | hf
        · have h0 := hfl f0 (by rw [hfl2]; exact List.mem_cons_self _ _)
          exact ⟨le_trans h0.1 ht, fun e he => by simp at he⟩
        · have h0 := hfl f (by rw [hfl2]; exact List.mem_cons_of_mem _ hf)
          exact ⟨le_trans h0.1 ht, fun e he => by simp at he⟩
    | some e0 =>
      by_cases hfresh : now - e0.fetchedAt < R
      · simp only [pstep, pcall, hentry, if_pos hfresh]
        refine ⟨hlen, fun f hf => ?_⟩
        have h0 := hfl f hf
        refine ⟨le_trans h0.1 ht, fun e he => h0.2 e he⟩
      · cases hfl2 : s.inflight with
        | nil =>
          simp only [pstep, pcall, hentry, if_neg hfresh, hfl2]
          refine ⟨by simp, ?_⟩
          intro f hf
          simp only [List.mem_singleton] at hf
          subst hf
          refine ⟨le_refl now, fun e he => ?_⟩
          simp only [Option.some.injEq] at he
          subst he
          dsimp only
          omega
        | cons f0 rest =>
          simp only [pstep, pcall, hentry, if_neg hfresh, hfl2]
          refine ⟨by simpa [hfl2] using hlen, ?_⟩
          intro f hf
          simp only [List.mem_cons] at hf
          have hold : ∀ g ∈ s.inflight, g.startedAt ≤ now ∧
              ∀ e, some e0 = some e → R ≤ g.startedAt - e.fetchedAt := by
            intro g hg
            have h0 := hfl g hg
            exact ⟨le_trans h0.1 ht, fun e he => h0.2 e (hentry.trans he)⟩
          rcases hf with rfl | hf
          · have h0 := hold f0 (by rw [hfl2]; exact List.mem_cons_self _ _)
            exact ⟨h0.1, h0.2⟩
          · exact hold f (by rw [hfl2]; exact List.mem_cons_of_mem _ hf)
  | settle fid o now =>
    simp only [timeOf] at ht ⊢
    simp only [pstep, psettle]
    by_cases hany : s.inflight.any (fun f => f.fid == fid) = true
    · rw [if_pos hany]
      have hempty : s.inflight.filter (fun f => !(f.fid == fid)) = [] := by
        cases hfl2 : s.inflight with
        | nil => rfl
        | cons f0 rest =>
          cases hrest : rest with
          | nil =>
            rw [hfl2, hrest] at hany
            simp only [List.any_eq_true, beq_iff_eq, List.mem_singleton] at hany
            obtain ⟨f1, hf1, hfid⟩ := hany
            subst hf1
            simp [List.filter, hfid]
          | cons f1 rest2 =>
            rw [hfl2, hrest] at hlen
            simp at hlen
      refine ⟨by simp [hempty], ?_⟩
      intro f hf
      simp only [hempty] at hf
      simp at hf
    · rw [if_neg hany]
      refine ⟨hlen, fun f hf => ?_⟩
      have h0 := hfl f hf
      exact ⟨le_trans h0.1 ht, h0.2⟩

/-- The invariant holds after any chronological trace. -/
theorem invP_run {T E : Type} (R : Int) (tr : List (PEvent T E)) :
    ∀ (t : Int) (s : PState T), InvP R t s → chrono t tr = true →
      InvP R (clockAfter t tr) (prun R s tr) := by
  induction tr with
  | nil => intro t s hinv _; exact hinv
  | cons e rest ih =>
    intro t s hinv hchrono
    simp only [chrono, Bool.and_eq_true, decide_eq_true_eq] at hchrono
    exact ih (timeOf e) (pstep R s e) (invP_step R t s e hinv hchrono.1) hchrono.2

/-- Splitting a chronological trace ending in one more event. -/
theorem chrono_append_singleton {T E : Type} (tr : List (PEvent T E)) :
    ∀ (t : Int) (e : PEvent T E), chrono t (tr ++ [e]) = true →
      chrono t tr = true ∧ clockAfter t tr ≤ timeOf e := by
  induction tr with
  | nil =>
    intro t e h
    simp only [List.nil_append, chrono, Bool.and_eq_true, decide_eq_true_eq] at h
    exact ⟨rfl, h.1⟩
  | cons x rest ih =>
    intro t e h
    simp only [List.cons_append, chrono, Bool.and_eq_true, decide_eq_true_eq] at h ⊢
    obtain ⟨h1, h2⟩ := h
    obtain ⟨h3, h4⟩ := ih (timeOf x) e h2
    exact ⟨⟨h1, h3⟩, h4⟩

/-- A chronological trace stays chronological from an earlier clock. -/
theorem chrono_mono {T E : Type} (t t' : Int) (l : List (PEvent T E))
    (h : t ≤ t') (hc : chrono t' l = true) : chrono t l = true := by
  cases l with
  | nil => rfl
  | cons x rest =>
    simp only [chrono, Bool.and_eq_true, decide_eq_true_eq] at hc ⊢
    exact ⟨le_trans h hc.1, hc.2⟩

/-- Every waiter notified by a settle receives the same outcome. -/
theorem psettle_same_outcome {T E : Type} (s : PState T) (fid : Nat)
    (o : Outcome T E) (now : Int) :
    ∀ p ∈ (psettle s fid o now).2, p.2 = o := by
  intro p hp
  by_cases hany : s.inflight.any (fun f => f.fid == fid) = true
  · simp only [psettle, if_pos hany, List.mem_map] at hp
    obtain ⟨c, _, hc⟩ := hp
    rw [← hc]
  · simp [psettle, hany] at hp

/-- A call arriving while a fetch is in flight, at or after the clock of
a chronological history that produced the state, blocks and joins that
same fetch: no new fetch id appears and the caller is appended to the
waiter list. -/
theorem pcall_joins_inflight {T E : Type} (R : Int) (tr : List (PEvent T E))
    (t0 now : Int) (c : Nat) (f : InFlightFetch) (rest : List InFlightFetch)
    (hch : chrono t0 tr = true) (hnow : clockAfter t0 tr ≤ now)
    (hfl : (prun R pInit tr).inflight = f :: rest) :
    (pcall R (prun R pInit tr) c now).2 = CallResult.blocked
    ∧ (pcall R (prun R pInit tr) c now).1.inflight =
        ⟨f.fid, f.startedAt, f.waiters ++ [c]⟩ :: rest := by
  obtain ⟨hlen, hfprop⟩ := invP_run R tr t0 pInit (invP_init R t0) hch
  cases hentry : (prun R pInit tr).entry with
  | none =>
    constructor <;> simp [pcall, hentry, hfl]
  | some e0 =>
    have h0 := hfprop f (by rw [hfl]; exact List.mem_cons_self _ _)
    have hst := h0.2 e0 hentry
    have hstale : ¬ (now - e0.fetchedAt < R) := by
      have h1 := h0.1
      omega
    constructor <;> simp [pcall, hentry, if_neg hstale, hfl]

/-! ### The keyed (parameterized) provider -/

/-- An event addressed to one cache key of a parameterized provider. -/
structure DPEvent (K T E : Type) where
  key : K
  ev : PEvent T E
deriving DecidableEq, Repr

/-- Modelled from the spec: initial state of a parameterized provider
(section 4.2; the implementation file is missing from the sources) —
every key starts at the lazily-created empty state. -/
def dInit (K T : Type) : K → PState T :=
  fun _ => pInit

/-- Modelled from the spec: a parameterized provider applies each event
to the state of its key and leaves every other key untouched (section
4.2: each distinct key has its own independent state). -/
def dstep {K T E : Type} [DecidableEq K] (R : Int) (σ : K → PState T)
    (e : DPEvent K T E) : K → PState T :=
  fun k => if k = e.key then pstep R (σ k) e.ev else σ k

/-- Run a trace of keyed events. -/
def drun {K T E : Type} [DecidableEq K] (R : Int) (σ : K → PState T)
    (tr : List (DPEvent K T E)) : K → PState T :=
  tr.foldl (dstep R) σ

/-- The sub-trace of events addressed to one key. -/
def projectKey {K T E : Type} [DecidableEq K] (k : K) (tr : List (DPEvent K T E)) :
    List (PEvent T E) :=
  (tr.filter (fun e => e.key == k)).map DPEvent.ev

/-- A keyed trace is chronological: event times never decrease. -/
def dchrono {K T E : Type} : Int → List (DPEvent K T E) → Bool
  | _, [] => true
  | t, e :: rest => decide (t ≤ timeOf e.ev) && dchrono (timeOf e.ev) rest

/-- The keyed run at a key is the per-key run of the projected
sub-trace. -/
theorem drun_projectKey {K T E : Type} [DecidableEq K] (R : Int)
    (tr : List (DPEvent K T E)) :
    ∀ (σ : K → PState T) (k : K), drun R σ tr k = prun R (σ k) (projectKey k tr) := by
  induction tr with
  | nil => intro σ k; rfl
  | cons e rest ih =>
    intro σ k
    show drun R (dstep R σ e) rest k = _
    rw [ih]
    by_cases hk : e.key = k
    · have h1 : projectKey k (e :: rest) = e.ev :: projectKey k rest := by
        simp [projectKey, List.filter, hk]
      have h2 : dstep R σ e k = pstep R (σ k) e.ev := by
        simp [dstep, hk]
      rw [h1, h2]
      rfl
    · have h1 : projectKey k (e :: rest) = projectKey k rest := by
        have hk2 : ¬ (e.key == k) = true := by simpa using hk
        simp [projectKey, List.filter, hk2]
      have h2 : dstep R σ e k = σ k := by
        have hk2 : ¬ k = e.key := fun he => hk he.symm
        simp [dstep, hk2]
      rw [h1, h2]

/-- Projection of a chronological keyed trace is chronological. -/
theorem dchrono_project {K T E : Type} [DecidableEq K] (k : K)
    (tr : List (DPEvent K T E)) :
    ∀ t, dchrono t tr = true → chrono t (projectKey k tr) = true := by
  induction tr with
  | nil => intro t _; rfl
  | cons e rest ih =>
    intro t h
    simp only [dchrono, Bool.and_eq_true, decide_eq_true_eq] at h
    by_cases hk : e.key = k
    · have h1 : projectKey k (e :: rest) = e.ev :: projectKey k rest := by
        simp [projectKey, List.filter, hk]
      rw [h1]
      simp only [chrono, Bool.and_eq_true, decide_eq_true_eq]
      exact ⟨h.1, ih (timeOf e.ev) h.2⟩
    · have h1 : projectKey k (e :: rest) = projectKey k rest := by
        have hk2 : ¬ (e.key == k) = true := by simpa using hk
        simp [projectKey, List.filter, hk2]
      rw [h1]
      exact chrono_mono _ _ _ h.1 (ih (timeOf e.ev) h.2)

/-- C1: after any chronological trace of calls and settlements, every
key of the provider has at most one fetch in flight; a caller arriving
at a key while a fetch is outstanding there blocks and joins exactly
that fetch (same fetch id, caller appended to its waiter list, no new
fetch started); and when a fetch settles, every waiter receives the
identical outcome. -/
theorem dataProvider_single_flight {K T E : Type} [DecidableEq K]
    (R t0 now : Int) (tr : List (DPEvent K T E)) (k : K) (c : Nat)
    (hch : dchrono t0 (tr ++ [⟨k, PEvent.call c now⟩]) = true) :
    (drun R (dInit K T) tr k).inflight.length ≤ 1
    ∧ (∀ f rest, (drun R (dInit K T) tr k).inflight = f :: rest →
        (pcall R (drun R (dInit K T) tr k) c now).2 = CallResult.blocked
        ∧ (pcall R (drun R (dInit K T) tr k) c now).1.inflight =
            ⟨f.fid, f.startedAt, f.waiters ++ [c]⟩ :: rest)
    ∧ (∀ (s : PState T) (fid : Nat) (o : Outcome T E) (tn : Int),
        ∀ p ∈ (psettle s fid o tn).2, p.2 = o) := by
  have hproj := dchrono_project k (tr ++ [⟨k, PEvent.call c now⟩]) t0 hch
  have hsplit : projectKey k (tr ++ [(⟨k, PEvent.call c now⟩ : DPEvent K T E)]) =
      projectKey k tr ++ [PEvent.call c now] := by
    simp [projectKey, List.filter_append, List.filter, List.map_append]
  rw [hsplit] at hproj
  obtain ⟨hchP, hclock⟩ := chrono_append_singleton (projectKey k tr) t0 _ hproj
  have hdrun : drun R (dInit K T) tr k = prun R pInit (projectKey k tr) :=
    drun_projectKey R tr (dInit K T) k
  refine ⟨?_, fun f rest hfl => ?_, fun s fid o tn => psettle_same_outcome s fid o tn⟩
  · rw [hdrun]
    exact (invP_run R (projectKey k tr) t0 pInit (invP_init R t0) hchP).1
  · rw [hdrun] at hfl ⊢
    exact pcall_joins_inflight R (projectKey k tr) t0 now c f rest hchP
      (by simpa [timeOf] using hclock) hfl

/-- C1 witness: a key with one outstanding fetch, one later concurrent
caller. -/
theorem dataProvider_single_flight_witness :
    (drun 10 (dInit Nat Nat) ([⟨5, PEvent.call 0 0⟩] : List (DPEvent Nat Nat Nat)) 5).inflight.length ≤ 1
    ∧ (pcall 10 (drun 10 (dInit Nat Nat) ([⟨5, PEvent.call 0 0⟩] : List (DPEvent Nat Nat Nat)) 5)
        1 2).2 = CallResult.blocked := by
  have h := dataProvider_single_flight (K := Nat) (T := Nat) (E := Nat)
    10 0 2 [⟨5, PEvent.call 0 0⟩] 5 1 (by decide)
  exact ⟨h.1, (h.2.1 ⟨0, 0, [0]⟩ [] (by decide)).1⟩

/-- C2: a call finding a fresh cache entry returns its value
immediately, leaving the state — in particular the count of fetches
ever started — untouched; hence two calls inside the TTL window both
return the cached value with zero new fetch invocations. -/
theorem dataProvider_fresh_hit {T E : Type} (R : Int) (s : PState T) (v : T)
    (tf t1 t2 : Int) (c1 c2 : Nat)
    (hentry : s.entry = some ⟨v, tf⟩) (h1 : t1 - tf < R) (h2 : t2 - tf < R) :
    pcall R s c1 t1 = (s, CallResult.immediate v)
    ∧ prun R s ([PEvent.call c1 t1, PEvent.call c2 t2] : List (PEvent T E)) = s
    ∧ (pcall R (prun R s ([PEvent.call c1 t1] : List (PEvent T E))) c2 t2).2 =
        CallResult.immediate v := by
  have hc1 : pcall R s c1 t1 = (s, CallResult.immediate v) := by
    simp [pcall, hentry, if_pos h1]
  have hc2 : pcall R s c2 t2 = (s, CallResult.immediate v) := by
    simp [pcall, hentry, if_pos h2]
  have hs1 : prun R s ([PEvent.call c1 t1] : List (PEvent T E)) = s := by
    show (pcall R s c1 t1).1 = s
    rw [hc1]
  refine ⟨hc1, ?_, ?_⟩
  · show (pcall R (pcall R s c1 t1).1 c2 t2).1 = s
    rw [hc1, hc2]
  · rw [hs1, hc2]

/-- C2 witness: two calls within the TTL window on a concrete cached
state. -/
theorem dataProvider_fresh_hit_witness :
    pcall 10 (⟨some ⟨7, 0⟩, [], 3⟩ : PState Nat) 1 1 =
      ((⟨some ⟨7, 0⟩, [], 3⟩ : PState Nat), CallResult.immediate 7)
    ∧ prun 10 (⟨some ⟨7, 0⟩, [], 3⟩ : PState Nat)
        ([PEvent.call 1 1, PEvent.call 2 2] : List (PEvent Nat Nat)) =
        (⟨some ⟨7, 0⟩, [], 3⟩ : PState Nat)
    ∧ (pcall 10 (prun 10 (⟨some ⟨7, 0⟩, [], 3⟩ : PState Nat)
        ([PEvent.call 1 1] : List (PEvent Nat Nat))) 2 2).2 = CallResult.immediate 7 :=
  dataProvider_fresh_hit 10 ⟨some ⟨7, 0⟩, [], 3⟩ 7 0 1 2 1 2 rfl (by decide) (by decide)

/-- C3: when the single in-flight fetch fails, the in-flight record is
cleared, every waiter receives the error, and the cache entry and fetch
counter are untouched; and from any state with nothing in flight and a
stale-or-absent entry, the next call starts exactly one new fetch —
a failure is never cached. -/
theorem dataProvider_failure_clean {T E : Type} (R : Int) (s : PState T)
    (f : InFlightFetch) (er : E) (now : Int) (hfl : s.inflight = [f]) :
    (psettle s f.fid (Outcome.err er) now).1.entry = s.entry
    ∧ (psettle s f.fid (Outcome.err er) now).1.inflight = []
    ∧ (psettle s f.fid (Outcome.err er) now).1.nextFetchId = s.nextFetchId
    ∧ (psettle s f.fid (Outcome.err er) now).2 =
        f.waiters.map (fun c => (c, Outcome.err er))
    ∧ (∀ (s' : PState T) (c : Nat) (now' : Int), s'.inflight = [] →
        (s'.entry = none ∨ ∃ en, s'.entry = some en ∧ ¬ (now' - en.fetchedAt < R)) →
        (pcall R s' c now').1.inflight.length = 1
        ∧ (pcall R s' c now').1.nextFetchId = s'.nextFetchId + 1) := by
  have hany : s.inflight.any (fun g => g.fid == f.fid) = true := by
    rw [hfl]
    simp
  refine ⟨?_, ?_, ?_, ?_, ?_⟩
  · simp [psettle, hany]
  · simp [psettle, hany, hfl, List.filter]
  · simp [psettle, hany]
  · simp [psettle, hany, hfl, List.filter]
  · intro s' c now' hfl' hst
    rcases hst with hnone | ⟨en, hsome, hstale⟩
    · constructor <;> simp [pcall, hnone, hfl']
    · constructor <;> simp [pcall, hsome, if_neg hstale, hfl']

/-- C3 witness: a concrete failing fetch with two waiters, then a fresh
call on the resulting state. -/
theorem dataProvider_failure_clean_witness :
    (psettle (⟨some ⟨7, 0⟩, [⟨4, 20, [1, 2]⟩], 5⟩ : PState Nat) 4
        (Outcome.err (0 : Nat)) 21).1.entry = some ⟨7, 0⟩
    ∧ (psettle (⟨some ⟨7, 0⟩, [⟨4, 20, [1, 2]⟩], 5⟩ : PState Nat) 4
        (Outcome.err (0 : Nat)) 21).1.inflight = []
    ∧ (psettle (⟨some ⟨7, 0⟩, [⟨4, 20, [1, 2]⟩], 5⟩ : PState Nat) 4
        (Outcome.err (0 : Nat)) 21).1.nextFetchId = 5
    ∧ (psettle (⟨some ⟨7, 0⟩, [⟨4, 20, [1, 2]⟩], 5⟩ : PState Nat) 4
        (Outcome.err (0 : Nat)) 21).2 =
        [(1, Outcome.err 0), (2, Outcome.err 0)]
    ∧ (pcall 10 (⟨some ⟨7, 0⟩, [], 5⟩ : PState Nat) 3 30).1.inflight.length = 1
    ∧ (pcall 10 (⟨some ⟨7, 0⟩, [], 5⟩ : PState Nat) 3 30).1.nextFetchId = 6 := by
  have h := dataProvider_failure_clean (T := Nat) (E := Nat) 10
    ⟨some ⟨7, 0⟩, [⟨4, 20, [1, 2]⟩], 5⟩ ⟨4, 20, [1, 2]⟩ 0 21 rfl
  have h5 := h.2.2.2.2 ⟨some ⟨7, 0⟩, [], 5⟩ 3 30 rfl
    (Or.inr ⟨⟨7, 0⟩, rfl, by decide⟩)
  exact ⟨h.1, h.2.1, h.2.2.1, h.2.2.2.1, h5.1, h5.2⟩

/-- C4 counterexample: a chronological history in which a fetch has
already succeeded (the entry holds data), yet a later call blocks — it
arrives while a stale-triggered refresh is in flight and joins it, so
`getState` does not block only when no fetch has ever succeeded. -/
theorem dataProvider_block_with_data_counterexample :
    chrono 0 (([PEvent.call 0 0, PEvent.settle 0 (Outcome.data 42) 1, PEvent.call 1 20]
        : List (PEvent Nat Nat)) ++ [PEvent.call 2 21]) = true
    ∧ (prun 10 pInit ([PEvent.call 0 0, PEvent.settle 0 (Outcome.data 42) 1,
        PEvent.call 1 20] : List (PEvent Nat Nat))).entry = some ⟨42, 1⟩
    ∧ (pcall 10 (prun 10 pInit ([PEvent.call 0 0, PEvent.settle 0 (Outcome.data 42) 1,
        PEvent.call 1 20] : List (PEvent Nat Nat))) 2 21).2 = CallResult.blocked := by
  decide

/-- C4 amended: a call finding a stale entry with nothing in flight
starts one asynchronous refresh with no waiter and still returns the
stale value immediately; a failed settle never touches the entry, so
the last-known value keeps being served past its TTL while refreshes
fail; and a call blocks awaiting a fetch only when either no fetch has
ever succeeded (no entry) or the entry is stale and a fetch is already
in flight (the call then awaits that fetch). -/
theorem dataProvider_stale_serves {T E : Type} (R : Int) (s : PState T)
    (e0 : CacheEntry T) (c : Nat) (now : Int)
    (hentry : s.entry = some e0) (hstale : ¬ (now - e0.fetchedAt < R))
    (hfl : s.inflight = []) :
    pcall R s c now =
      ({ s with
          inflight := [⟨s.nextFetchId, now, []⟩],
          nextFetchId := s.nextFetchId + 1 }, CallResult.immediate e0.value)
    ∧ (∀ (fid : Nat) (er : E) (tn : Int),
        (psettle s fid (Outcome.err er) tn).1.entry = s.entry)
    ∧ (∀ (s' : PState T) (c' : Nat) (now' : Int),
        (pcall R s' c' now').2 = CallResult.blocked →
        s'.entry = none
        ∨ ∃ en, s'.entry = some en ∧ ¬ (now' - en.fetchedAt < R) ∧ s'.inflight ≠ []) := by
  refine ⟨?_, ?_, ?_⟩
  · simp [pcall, hentry, if_neg hstale, hfl]
  · intro fid er tn
    by_cases hany : s.inflight.any (fun g => g.fid == fid) = true
    · simp [psettle, hany]
    · simp [psettle, hany]
  · intro s' c' now' hblocked
    cases hentry' : s'.entry with
    | none => exact Or.inl rfl
    | some en =>
      right
      by_cases hfresh : now' - en.fetchedAt < R
      · simp [pcall, hentry', if_pos hfresh] at hblocked
      · cases hfl' : s'.inflight with
        | nil => simp [pcall, hentry', if_neg hfresh, hfl'] at hblocked
        | cons f0 rest0 => exact ⟨en, rfl, hfresh, by simp [hfl']⟩

/-- C4 amended witness: a concrete stale state with nothing in flight
serves the stale value while starting a refresh; a blocked call on the
empty initial state is explained by the absent entry. -/
theorem dataProvider_stale_serves_witness :
    pcall 10 (⟨some ⟨7, 0⟩, [], 3⟩ : PState Nat) 1 50 =
      ((⟨some ⟨7, 0⟩, [⟨3, 50, []⟩], 4⟩ : PState Nat), CallResult.immediate 7)
    ∧ (psettle (⟨some ⟨7, 0⟩, [], 3⟩ : PState Nat) 9 (Outcome.err (0 : Nat)) 60).1.entry =
        some ⟨7, 0⟩
    ∧ ((pInit : PState Nat).entry = none
        ∨ ∃ en, (pInit : PState Nat).entry = some en
            ∧ ¬ ((5 : Int) - en.fetchedAt < 10) ∧ (pInit : PState Nat).inflight ≠ []) := by
  have h := dataProvider_stale_serves (T := Nat) (E := Nat) 10 ⟨some ⟨7, 0⟩, [], 3⟩
    ⟨7, 0⟩ 1 50 rfl (by decide) rfl
  refine ⟨h.1, h.2.1 9 0 60, h.2.2 pInit 0 5 (by decide)⟩

end DappsBackend
